import Mathlib

/-!
Verification of the cupoch geometry transform and bound-computation engine
(`src/cupoch/geometry/geometry3d.h`) and the console logger
(`src/cupoch/utility/console.h`).

Point and normal buffers are device-resident sequences of 3-component
single-precision vectors; we model them as lists of exact rational
3-vectors (`Vec3`), and a 4x4 transformation matrix as
`Matrix (Fin 4) (Fin 4) ℚ`.  The rotation-matrix factory functions operate
over the reals, since they involve square roots and trigonometric
functions.

The repository ships only the header `geometry3d.h` for the buffer
operations; the kernel bodies live in a `.cu` translation unit that is not
part of the source set, so those operations are modelled from the
specification text, as marked on each definition.  The logger and the
default arguments of the per-geometry contract are taken directly from the
headers.
-/

namespace Cupoch

/-- A 3-component vector, modelling `Eigen::Vector3f` with exact rationals. -/
structure Vec3 where
  x : ℚ
  y : ℚ
  z : ℚ
  deriving DecidableEq, Repr

namespace Vec3

/-- The zero vector, `Eigen::Vector3f::Zero()`. -/
def zero : Vec3 := ⟨0, 0, 0⟩

/-- Componentwise addition. -/
def add (a b : Vec3) : Vec3 := ⟨a.x + b.x, a.y + b.y, a.z + b.z⟩

/-- Componentwise subtraction. -/
def sub (a b : Vec3) : Vec3 := ⟨a.x - b.x, a.y - b.y, a.z - b.z⟩

/-- Scalar multiplication. -/
def smul (s : ℚ) (a : Vec3) : Vec3 := ⟨s * a.x, s * a.y, s * a.z⟩

/-- Componentwise minimum, `thrust::elementwise_minimum`. -/
def cmin (a b : Vec3) : Vec3 := ⟨min a.x b.x, min a.y b.y, min a.z b.z⟩

/-- Componentwise maximum, `thrust::elementwise_maximum`. -/
def cmax (a b : Vec3) : Vec3 := ⟨max a.x b.x, max a.y b.y, max a.z b.z⟩

/-- Componentwise order on 3-vectors. -/
abbrev le (a b : Vec3) : Prop := a.x ≤ b.x ∧ a.y ≤ b.y ∧ a.z ≤ b.z

end Vec3

/-- A 4x4 transformation matrix over exact rationals, modelling
`Eigen::Matrix4f`: top-left 3x3 submatrix is the linear part, rightmost
column the translation, bottom row the homogeneous row. -/
abbrev Mat4 := Matrix (Fin 4) (Fin 4) ℚ

/-- Application of the top-left 3x3 linear part of a 4x4 matrix to a
3-vector. -/
def linearApply (m : Mat4) (p : Vec3) : Vec3 :=
  ⟨m 0 0 * p.x + m 0 1 * p.y + m 0 2 * p.z,
   m 1 0 * p.x + m 1 1 * p.y + m 1 2 * p.z,
   m 2 0 * p.x + m 2 1 * p.y + m 2 2 * p.z⟩

/-- The translation column of a 4x4 matrix. -/
def translationOf (m : Mat4) : Vec3 := ⟨m 0 3, m 1 3, m 2 3⟩

/-- The homogeneous coordinate produced by the bottom row of a 4x4 matrix
applied to the homogeneous extension `(p, 1)` of a point. -/
def homoW (m : Mat4) (p : Vec3) : ℚ :=
  m 3 0 * p.x + m 3 1 * p.y + m 3 2 * p.z + m 3 3

/-- Modelled from the spec: the kernel body of
`Geometry3D::TransformPoints` is in a `.cu` file outside the source set;
`spec.md` section 4.1 states that each point is replaced by the homogeneous
transform: apply the 3x3 linear part, add the translation column, and
divide by the homogeneous coordinate `w` only if `w` is not `1`. -/
def transformPoint (m : Mat4) (p : Vec3) : Vec3 :=
  let q := Vec3.add (linearApply m p) (translationOf m)
  let w := homoW m p
  if w = 1 then q else Vec3.smul (1 / w) q

/-- Modelled from the spec: `Geometry3D::TransformPoints` applies
`transformPoint` to every point of the buffer in place (an elementwise
parallel map). -/
def transformPoints (m : Mat4) (points : List Vec3) : List Vec3 :=
  points.map (transformPoint m)

/-- Modelled from the spec: the kernel body of
`Geometry3D::TransformNormals` is outside the source set; `spec.md` section
4.1 states that only the 3x3 linear part of the matrix is applied to each
normal, with no renormalization. -/
def transformNormals (m : Mat4) (normals : List Vec3) : List Vec3 :=
  normals.map (linearApply m)

/-- Modelled from the spec: the reduction body of
`Geometry3D::ComputeMinBound` is outside the source set; `spec.md` states a
componentwise parallel min-reduction returning the zero vector on an empty
buffer. -/
def computeMinBound : List Vec3 → Vec3
  | [] => Vec3.zero
  | p :: ps => ps.foldl Vec3.cmin p

/-- Modelled from the spec: the reduction body of
`Geometry3D::ComputeMaxBound` is outside the source set; `spec.md` states a
componentwise parallel max-reduction returning the zero vector on an empty
buffer. -/
def computeMaxBound : List Vec3 → Vec3
  | [] => Vec3.zero
  | p :: ps => ps.foldl Vec3.cmax p

/-- Sum of a point buffer. -/
def sumPoints (points : List Vec3) : Vec3 :=
  points.foldl Vec3.add Vec3.zero

/-- Modelled from the spec: the reduction body of
`Geometry3D::ComputeCenter` is outside the source set; `spec.md` states the
arithmetic mean of all points, returning the zero vector on an empty
buffer. -/
def computeCenter (points : List Vec3) : Vec3 :=
  if points.length = 0 then Vec3.zero
  else Vec3.smul (1 / (points.length : ℚ)) (sumPoints points)

/-- Modelled from the spec: the kernel body of
`Geometry3D::TranslatePoints` is outside the source set; `spec.md` section
4.1 states that with `relative` every point gets the translation added,
and otherwise every point is shifted by the translation minus the
arithmetic-mean center. -/
def translatePoints (t : Vec3) (points : List Vec3) (relative : Bool) :
    List Vec3 :=
  if relative then points.map (fun p => Vec3.add p t)
  else
    let c := computeCenter points
    points.map (fun p => Vec3.add p (Vec3.sub t c))

/-- Modelled from the spec: the kernel body of `Geometry3D::ScalePoints` is
outside the source set; `spec.md` section 4.1 states that with `center` the
arithmetic-mean center `c` is computed first and every point `p` becomes
`c + s * (p - c)`, and otherwise every point becomes `s * p`. -/
def scalePoints (s : ℚ) (points : List Vec3) (center : Bool) : List Vec3 :=
  if center then
    let c := computeCenter points
    points.map (fun p => Vec3.add c (Vec3.smul s (Vec3.sub p c)))
  else points.map (Vec3.smul s)

/-- A 3x3 matrix over the rationals, modelling `Eigen::Matrix3f` as a
rotation argument. -/
abbrev Mat3Q := Matrix (Fin 3) (Fin 3) ℚ

/-- Application of a 3x3 matrix to a 3-vector. -/
def mat3Apply (r : Mat3Q) (p : Vec3) : Vec3 :=
  ⟨r 0 0 * p.x + r 0 1 * p.y + r 0 2 * p.z,
   r 1 0 * p.x + r 1 1 * p.y + r 1 2 * p.z,
   r 2 0 * p.x + r 2 1 * p.y + r 2 2 * p.z⟩

/-- Modelled from the spec: the kernel body of `Geometry3D::RotatePoints`
is outside the source set; `spec.md` section 4.1 states that points are
rotated about the centroid when `center` is true and about the origin
otherwise. -/
def rotatePoints (r : Mat3Q) (points : List Vec3) (center : Bool) :
    List Vec3 :=
  if center then
    let c := computeCenter points
    points.map (fun p => Vec3.add c (mat3Apply r (Vec3.sub p c)))
  else points.map (mat3Apply r)

/-- Default value of the optional `relative` parameter of
`Geometry3D::Translate`, transcribed from `geometry3d.h` line 41: a call
without the argument passes `true`. -/
def translateRelativeDefault : Bool := true

/-- Default value of the optional `center` parameter of
`Geometry3D::Scale`, transcribed from `geometry3d.h` line 49: a call
without the argument passes `true`. -/
def scaleCenterDefault : Bool := true

/-- Default value of the optional `center` parameter of
`Geometry3D::Rotate`, transcribed from `geometry3d.h` line 59: a call
without the argument passes `true`. -/
def rotateCenterDefault : Bool := true

/-- Verbosity levels of the logger, transcribed from `console.h` lines
15-22 together with their underlying integer values. -/
inductive VerbosityLevel where
  | Off
  | Fatal
  | Error
  | Warning
  | Info
  | Debug
  deriving DecidableEq, Repr

/-- The underlying integer value of each enumerator of `VerbosityLevel`
(`Off = 0, Fatal = 1, ..., Debug = 5`), used by the C++ relational
comparison between two values of the scoped enum. -/
def VerbosityLevel.val : VerbosityLevel → Nat
  | .Off => 0
  | .Fatal => 1
  | .Error => 2
  | .Warning => 3
  | .Info => 4
  | .Debug => 5

/-- Observable effect of a logging call: the strings it prints to the
console, and the exit code it terminates the process with, if any
(`none` means the call returns normally and the program continues). -/
structure LogAction where
  printed : List String
  exitCode : Option Int
  deriving DecidableEq, Repr

/-- Model of `Logger::VFatal` (`console.h` lines 53-61): when the logger
verbosity level is at least `Fatal` (the enum comparison
`verbosity_level_ >= VerbosityLevel::Fatal` compares underlying values),
the call prints the fatal tag and the message and terminates the process
via `exit(-1)`; otherwise it prints nothing and returns normally. -/
def vFatal (verbosityLevel : VerbosityLevel) (msg : String) : LogAction :=
  if VerbosityLevel.Fatal.val ≤ verbosityLevel.val then
    { printed := ["[Cupoc FATAL] ", msg], exitCode := some (-1) }
  else
    { printed := [], exitCode := none }

/-- A 3-component vector over the reals, used by the rotation-matrix
factory functions, which involve square roots and trigonometry. -/
structure Vec3R where
  x : ℝ
  y : ℝ
  z : ℝ

/-- Squared Euclidean norm of a real 3-vector. -/
def Vec3R.normSq (v : Vec3R) : ℝ := v.x ^ 2 + v.y ^ 2 + v.z ^ 2

/-- Euclidean norm of a real 3-vector. -/
noncomputable def Vec3R.norm (v : Vec3R) : ℝ := Real.sqrt v.normSq

/-- Normalization of a real 3-vector: each component divided by the norm. -/
noncomputable def Vec3R.normalize (v : Vec3R) : Vec3R :=
  ⟨v.x / v.norm, v.y / v.norm, v.z / v.norm⟩

/-- A 3x3 matrix over the reals, the result type of the rotation-matrix
factory. -/
abbrev Mat3 := Matrix (Fin 3) (Fin 3) ℝ

/-- The skew-symmetric cross-product matrix of a real 3-vector, used by
the Rodrigues axis-angle formula. -/
def crossMatrix (v : Vec3R) : Mat3 :=
  Matrix.of ![![0, -v.z, v.y], ![v.z, 0, -v.x], ![-v.y, v.x, 0]]

/-- The standard Rodrigues rotation matrix about the axis `u` (expected to
be a unit vector) by the angle `theta` in radians:
`I + sin(theta) K + (1 - cos(theta)) K^2` where `K` is the cross-product
matrix of `u`. -/
noncomputable def rodrigues (u : Vec3R) (theta : ℝ) : Mat3 :=
  1 + Real.sin theta • crossMatrix u +
    (1 - Real.cos theta) • (crossMatrix u * crossMatrix u)

/-- Modelled from the spec: the body of
`Geometry3D::GetRotationMatrixFromAxisAngle` is outside the source set;
`spec.md` section 4.2 states that the zero input vector yields the
identity matrix, and any other input yields the Rodrigues rotation about
the normalized input direction by an angle equal to the input's
magnitude in radians. -/
noncomputable def getRotationMatrixFromAxisAngle (r : Vec3R) : Mat3 :=
  if r.x = 0 ∧ r.y = 0 ∧ r.z = 0 then 1
  else rodrigues r.normalize r.norm

/-- A quaternion with scalar-first component ordering `(w, x, y, z)`, the
documented ordering of the 4-component input vector of
`Geometry3D::GetRotationMatrixFromQuaternion`. -/
structure Quat where
  w : ℝ
  x : ℝ
  y : ℝ
  z : ℝ

/-- Squared norm of a quaternion. -/
def Quat.normSq (q : Quat) : ℝ := q.w ^ 2 + q.x ^ 2 + q.y ^ 2 + q.z ^ 2

/-- Norm of a quaternion. -/
noncomputable def Quat.norm (q : Quat) : ℝ := Real.sqrt q.normSq

/-- Normalization of a quaternion: each component divided by the norm. -/
noncomputable def Quat.normalize (q : Quat) : Quat :=
  ⟨q.w / q.norm, q.x / q.norm, q.y / q.norm, q.z / q.norm⟩

/-- The standard rotation matrix of a unit quaternion `(w, x, y, z)`. -/
def quatToMatrix (q : Quat) : Mat3 :=
  Matrix.of
    ![![1 - 2 * (q.y ^ 2 + q.z ^ 2), 2 * (q.x * q.y - q.w * q.z),
        2 * (q.x * q.z + q.w * q.y)],
      ![2 * (q.x * q.y + q.w * q.z), 1 - 2 * (q.x ^ 2 + q.z ^ 2),
        2 * (q.y * q.z - q.w * q.x)],
      ![2 * (q.x * q.z - q.w * q.y), 2 * (q.y * q.z + q.w * q.x),
        1 - 2 * (q.x ^ 2 + q.y ^ 2)]]

/-- Modelled from the spec: the body of
`Geometry3D::GetRotationMatrixFromQuaternion` is outside the source set;
`spec.md` section 4.2 states that a non-unit-norm input is normalized
before conversion and the rotation matrix of the resulting unit
quaternion is returned. -/
noncomputable def getRotationMatrixFromQuaternion (q : Quat) : Mat3 :=
  quatToMatrix q.normalize

end Cupoch

namespace Cupoch

/-! ### Helper lemmas -/

/-- Two 3-vectors are equal when all three components agree. -/
theorem Vec3.ext_components {a b : Vec3} (hx : a.x = b.x) (hy : a.y = b.y)
    (hz : a.z = b.z) : a = b := by
  cases a; cases b; simp_all

/-- Sum of an affine image of a rational list. -/
theorem sum_map_affine (l : List ℚ) (u v : ℚ) :
    (l.map fun w => u + v * w).sum = l.length * u + v * l.sum := by
  induction l with
  | nil => simp
  | cons a t ih =>
    simp only [List.map_cons, List.sum_cons, ih, List.length_cons]
    push_cast
    ring

/-- A min-fold is bounded by its initial value. -/
theorem foldl_min_le_init (t : List ℚ) (a : ℚ) : t.foldl min a ≤ a := by
  induction t generalizing a with
  | nil => exact le_refl a
  | cons b t ih =>
    calc t.foldl min (min a b) ≤ min a b := ih (min a b)
    _ ≤ a := min_le_left a b

/-- A min-fold is bounded by every member of the list. -/
theorem foldl_min_le_mem (t : List ℚ) (a b : ℚ) (hb : b ∈ t) :
    t.foldl min a ≤ b := by
  induction t generalizing a with
  | nil => cases hb
  | cons c t ih =>
    rcases List.mem_cons.mp hb with h | h
    · subst h
      calc t.foldl min (min a b) ≤ min a b := foldl_min_le_init t (min a b)
      _ ≤ b := min_le_right a b
    · exact ih (min a c) h

/-- A max-fold dominates its initial value. -/
theorem init_le_foldl_max (t : List ℚ) (a : ℚ) : a ≤ t.foldl max a := by
  induction t generalizing a with
  | nil => exact le_refl a
  | cons b t ih =>
    calc a ≤ max a b := le_max_left a b
    _ ≤ t.foldl max (max a b) := ih (max a b)

/-- A max-fold dominates every member of the list. -/
theorem mem_le_foldl_max (t : List ℚ) (a b : ℚ) (hb : b ∈ t) :
    b ≤ t.foldl max a := by
  induction t generalizing a with
  | nil => cases hb
  | cons c t ih =>
    rcases List.mem_cons.mp hb with h | h
    · subst h
      calc b ≤ max a b := le_max_right a b
      _ ≤ t.foldl max (max a b) := init_le_foldl_max t (max a b)
    · exact ih (max a c) h

/-- A lower bound on all members of a rational list bounds its sum from
below by the length times the bound. -/
theorem length_mul_le_sum (l : List ℚ) (m : ℚ) (h : ∀ b ∈ l, m ≤ b) :
    (l.length : ℚ) * m ≤ l.sum := by
  induction l with
  | nil => simp
  | cons a t ih =>
    have ha : m ≤ a := h a (List.mem_cons_self a t)
    have ht : (t.length : ℚ) * m ≤ t.sum :=
      ih fun b hb => h b (List.mem_cons_of_mem a hb)
    simp only [List.sum_cons, List.length_cons]
    push_cast
    nlinarith

/-- An upper bound on all members of a rational list bounds its sum from
above by the length times the bound. -/
theorem sum_le_length_mul (l : List ℚ) (m : ℚ) (h : ∀ b ∈ l, b ≤ m) :
    l.sum ≤ (l.length : ℚ) * m := by
  induction l with
  | nil => simp
  | cons a t ih =>
    have ha : a ≤ m := h a (List.mem_cons_self a t)
    have ht : t.sum ≤ (t.length : ℚ) * m :=
      ih fun b hb => h b (List.mem_cons_of_mem a hb)
    simp only [List.sum_cons, List.length_cons]
    push_cast
    nlinarith

end Cupoch

namespace Cupoch

/-! ### Claim theorems -/

/-- C1: `TransformPoints(M, P)` replaces each point `p` in place with the
homogeneous transform of `M` applied to `p`: the 3x3 linear part is
applied and the translation column added, and the result is divided by
the homogeneous coordinate `w` only if `w` is not `1` (when `w = 1` no
division is performed). -/
theorem transformPoints_spec :
    ∀ (m : Mat4) (points : List Vec3),
      transformPoints m points = points.map (fun p =>
        if homoW m p = 1 then Vec3.add (linearApply m p) (translationOf m)
        else Vec3.smul (1 / homoW m p)
          (Vec3.add (linearApply m p) (translationOf m))) := by
  intro m points
  rfl

/-- C3: for the empty point buffer, `ComputeMinBound`, `ComputeMaxBound`
and `ComputeCenter` all return the zero vector, as a defined degenerate
result and not an error. -/
theorem emptyBuffer_reductions :
    computeMinBound [] = Vec3.zero ∧ computeMaxBound [] = Vec3.zero ∧
      computeCenter [] = Vec3.zero :=
  ⟨rfl, rfl, rfl⟩

/-- C7: `TransformNormals(M, N)` replaces each normal with the product of
only the top-left 3x3 linear submatrix of `M` and that normal; the
translation column is ignored (replacing it changes nothing) and the
resulting normals are exactly the plain linear images, with no
renormalization applied. -/
theorem transformNormals_spec :
    ∀ (m : Mat4) (normals : List Vec3),
      transformNormals m normals = normals.map (linearApply m) ∧
      ∀ t : Vec3,
        transformNormals (m.updateColumn 3 ![t.x, t.y, t.z, m 3 3]) normals =
          transformNormals m normals := by
  intro m normals
  refine ⟨rfl, fun t => ?_⟩
  have hf : linearApply (m.updateColumn 3 ![t.x, t.y, t.z, m 3 3]) =
      linearApply m := by
    funext p
    simp [linearApply, Matrix.updateColumn_apply]
  rw [transformNormals, transformNormals, hf]

/-- C9: the per-geometry contract operations default their optional
boolean to `true`: `Translate` defaults `relative` to `true` (the
translation vector is added directly), while `Scale` and `Rotate` default
`center` to `true` (the operation is applied about the geometry's
arithmetic-mean center, not the origin). -/
theorem contract_defaults_spec :
    (translateRelativeDefault = true ∧ scaleCenterDefault = true ∧
      rotateCenterDefault = true) ∧
    (∀ (t : Vec3) (points : List Vec3),
      translatePoints t points translateRelativeDefault =
        points.map fun p => Vec3.add p t) ∧
    (∀ (s : ℚ) (points : List Vec3),
      scalePoints s points scaleCenterDefault =
        points.map fun p =>
          Vec3.add (computeCenter points)
            (Vec3.smul s (Vec3.sub p (computeCenter points)))) ∧
    (∀ (r : Mat3Q) (points : List Vec3),
      rotatePoints r points rotateCenterDefault =
        points.map fun p =>
          Vec3.add (computeCenter points)
            (mat3Apply r (Vec3.sub p (computeCenter points)))) :=
  ⟨⟨rfl, rfl, rfl⟩, fun _ _ => rfl, fun _ _ => rfl, fun _ _ => rfl⟩

/-- C10: `Logger::VFatal` terminates the process with exit code `-1` if
and only if the logger's verbosity level is at least `Fatal`; when the
verbosity level is `Off`, a fatal log call prints nothing and returns
normally, so the program continues. -/
theorem vFatal_spec :
    (∀ (lvl : VerbosityLevel) (msg : String),
      (vFatal lvl msg).exitCode = some (-1) ↔
        VerbosityLevel.Fatal.val ≤ lvl.val) ∧
    (∀ msg : String,
      vFatal VerbosityLevel.Off msg = { printed := [], exitCode := none }) := by
  constructor
  · intro lvl msg
    cases lvl <;> simp [vFatal, VerbosityLevel.val]
  · intro msg
    rfl

end Cupoch

namespace Cupoch

/-- A componentwise fold over 3-vectors commutes with a component
projection that commutes with the folded operation. -/
theorem foldl_op_component (g : Vec3 → ℚ) (op : Vec3 → Vec3 → Vec3)
    (h2 : ℚ → ℚ → ℚ) (hc : ∀ a b, g (op a b) = h2 (g a) (g b)) :
    ∀ (t : List Vec3) (a : Vec3),
      g (t.foldl op a) = (t.map g).foldl h2 (g a) := by
  intro t
  induction t with
  | nil => intro a; rfl
  | cons p t ih =>
    intro a
    simp only [List.foldl_cons, List.map_cons, ih, hc]

/-- A fold of vector additions commutes with an additive component
projection. -/
theorem foldl_add_component (g : Vec3 → ℚ)
    (hadd : ∀ a b, g (Vec3.add a b) = g a + g b) :
    ∀ (t : List Vec3) (a : Vec3),
      g (t.foldl Vec3.add a) = g a + (t.map g).sum := by
  intro t
  induction t with
  | nil => intro a; simp
  | cons p t ih =>
    intro a
    simp only [List.foldl_cons, List.map_cons, List.sum_cons, ih, hadd]
    ring

/-- Component of the arithmetic-mean center of a non-empty buffer. -/
theorem computeCenter_cons_component (g : Vec3 → ℚ)
    (hadd : ∀ a b, g (Vec3.add a b) = g a + g b) (hzero : g Vec3.zero = 0)
    (hsmul : ∀ s a, g (Vec3.smul s a) = s * g a) (p : Vec3) (ps : List Vec3) :
    g (computeCenter (p :: ps)) =
      (g p + (ps.map g).sum) / ((ps.length : ℚ) + 1) := by
  have hcond : ¬((p :: ps).length = 0) := by simp
  rw [computeCenter, if_neg hcond, hsmul, sumPoints,
    foldl_add_component g hadd (p :: ps) Vec3.zero, hzero]
  simp only [List.map_cons, List.sum_cons, List.length_cons]
  push_cast
  ring

/-- The arithmetic-mean center commutes with a componentwise affine map of
the buffer, componentwise. -/
theorem computeCenter_map_component (g : Vec3 → ℚ)
    (hadd : ∀ a b, g (Vec3.add a b) = g a + g b) (hzero : g Vec3.zero = 0)
    (hsmul : ∀ s a, g (Vec3.smul s a) = s * g a) (f : Vec3 → Vec3) (u v : ℚ)
    (hf : ∀ q, g (f q) = u + v * g q) (p : Vec3) (ps : List Vec3) :
    g (computeCenter ((p :: ps).map f)) =
      u + v * g (computeCenter (p :: ps)) := by
  rw [List.map_cons,
    computeCenter_cons_component g hadd hzero hsmul (f p) (ps.map f),
    computeCenter_cons_component g hadd hzero hsmul p ps, List.map_map]
  have hcomp : (g ∘ f) = fun q => u + v * g q := funext hf
  rw [hcomp]
  have hsplit : ps.map (fun q => u + v * g q) =
      (ps.map g).map (fun w => u + v * w) := by
    rw [List.map_map]
    rfl
  rw [hsplit, sum_map_affine, hf p, List.length_map, List.length_map]
  have hn : ((ps.length : ℚ) + 1) ≠ 0 := by positivity
  field_simp
  ring

/-- Min-fold, arithmetic mean and max-fold of a rational list are ordered. -/
theorem q_min_mean_max (a : ℚ) (t : List ℚ) :
    t.foldl min a ≤ t.foldl max a ∧
    t.foldl min a ≤ (a + t.sum) / ((t.length : ℚ) + 1) ∧
    (a + t.sum) / ((t.length : ℚ) + 1) ≤ t.foldl max a := by
  have hmin_init := foldl_min_le_init t a
  have hmax_init := init_le_foldl_max t a
  have hn : (0 : ℚ) < (t.length : ℚ) + 1 := by positivity
  refine ⟨hmin_init.trans hmax_init, ?_, ?_⟩
  · rw [le_div_iff₀ hn]
    have h2 : (t.length : ℚ) * (t.foldl min a) ≤ t.sum :=
      length_mul_le_sum t _ fun b hb => foldl_min_le_mem t a b hb
    nlinarith
  · rw [div_le_iff₀ hn]
    have h2 : t.sum ≤ (t.length : ℚ) * (t.foldl max a) :=
      sum_le_length_mul t _ fun b hb => mem_le_foldl_max t a b hb
    nlinarith

end Cupoch

namespace Cupoch

/-- C2: `TranslatePoints(t, P, relative=true)` adds `t` to every point;
for a non-empty buffer, `TranslatePoints(t, P, relative=false)` shifts
every point by `t - c` where `c` is the arithmetic-mean center of `P`, so
that `ComputeCenter` of the resulting buffer equals `t`. -/
theorem translatePoints_spec :
    ∀ (t : Vec3) (points : List Vec3),
      translatePoints t points true =
        points.map (fun p => Vec3.add p t) ∧
      (points ≠ [] →
        translatePoints t points false =
          points.map
            (fun p => Vec3.add p (Vec3.sub t (computeCenter points))) ∧
        computeCenter (translatePoints t points false) = t) := by
  intro t points
  refine ⟨rfl, fun h => ⟨rfl, ?_⟩⟩
  obtain ⟨p, ps, rfl⟩ := List.exists_cons_of_ne_nil h
  show computeCenter ((p :: ps).map
    (fun q => Vec3.add q (Vec3.sub t (computeCenter (p :: ps))))) = t
  set c := computeCenter (p :: ps) with hc
  apply Vec3.ext_components
  · rw [computeCenter_map_component Vec3.x (fun a b => rfl) rfl
      (fun s a => rfl) _ (t.x - c.x) 1
      (fun q => by show q.x + (t.x - c.x) = t.x - c.x + 1 * q.x; ring) p ps]
    rw [← hc]
    ring
  · rw [computeCenter_map_component Vec3.y (fun a b => rfl) rfl
      (fun s a => rfl) _ (t.y - c.y) 1
      (fun q => by show q.y + (t.y - c.y) = t.y - c.y + 1 * q.y; ring) p ps]
    rw [← hc]
    ring
  · rw [computeCenter_map_component Vec3.z (fun a b => rfl) rfl
      (fun s a => rfl) _ (t.z - c.z) 1
      (fun q => by show q.z + (t.z - c.z) = t.z - c.z + 1 * q.z; ring) p ps]
    rw [← hc]
    ring

/-- C2 witness: the non-relative translation of a concrete two-point
buffer matches the shift by `t` minus the center, and recenters the
buffer at `t`. -/
theorem translatePoints_spec_witness :
    translatePoints ⟨1, 1, 1⟩ [⟨1, 2, 3⟩, ⟨3, 0, 1⟩] false =
      [(⟨1, 2, 3⟩ : Vec3), ⟨3, 0, 1⟩].map
        (fun p => Vec3.add p
          (Vec3.sub ⟨1, 1, 1⟩ (computeCenter [⟨1, 2, 3⟩, ⟨3, 0, 1⟩]))) ∧
    computeCenter (translatePoints ⟨1, 1, 1⟩ [⟨1, 2, 3⟩, ⟨3, 0, 1⟩] false) =
      ⟨1, 1, 1⟩ :=
  (translatePoints_spec ⟨1, 1, 1⟩ [⟨1, 2, 3⟩, ⟨3, 0, 1⟩]).2 (by decide)

/-- C4: for a non-empty buffer, `ScalePoints(s, P, center=true)` replaces
each point `p` with `c + s * (p - c)` where `c` is the arithmetic-mean
center computed before scaling, and for `s > 0` the center of the scaled
buffer equals the center before the call (exactly, in the rational
model); `ScalePoints(s, P, center=false)` replaces each point with
`s * p`. -/
theorem scalePoints_spec :
    ∀ (s : ℚ) (points : List Vec3),
      (points ≠ [] →
        scalePoints s points true =
          points.map (fun p =>
            Vec3.add (computeCenter points)
              (Vec3.smul s (Vec3.sub p (computeCenter points)))) ∧
        (0 < s →
          computeCenter (scalePoints s points true) =
            computeCenter points)) ∧
      scalePoints s points false = points.map (Vec3.smul s) := by
  intro s points
  refine ⟨fun h => ⟨rfl, fun _ => ?_⟩, rfl⟩
  obtain ⟨p, ps, rfl⟩ := List.exists_cons_of_ne_nil h
  show computeCenter ((p :: ps).map
    (fun q => Vec3.add (computeCenter (p :: ps))
      (Vec3.smul s (Vec3.sub q (computeCenter (p :: ps)))))) =
    computeCenter (p :: ps)
  set c := computeCenter (p :: ps) with hc
  apply Vec3.ext_components
  · rw [computeCenter_map_component Vec3.x (fun a b => rfl) rfl
      (fun u a => rfl) _ (c.x - s * c.x) s
      (fun q => by
        show c.x + s * (q.x - c.x) = c.x - s * c.x + s * q.x; ring) p ps]
    rw [← hc]
    ring
  · rw [computeCenter_map_component Vec3.y (fun a b => rfl) rfl
      (fun u a => rfl) _ (c.y - s * c.y) s
      (fun q => by
        show c.y + s * (q.y - c.y) = c.y - s * c.y + s * q.y; ring) p ps]
    rw [← hc]
    ring
  · rw [computeCenter_map_component Vec3.z (fun a b => rfl) rfl
      (fun u a => rfl) _ (c.z - s * c.z) s
      (fun q => by
        show c.z + s * (q.z - c.z) = c.z - s * c.z + s * q.z; ring) p ps]
    rw [← hc]
    ring

/-- C4 witness: scaling a concrete three-point buffer about its center by
`2` matches the stated pointwise formula and leaves the center
unchanged. -/
theorem scalePoints_spec_witness :
    scalePoints 2 [⟨0, 0, 0⟩, ⟨2, 0, 0⟩, ⟨0, 2, 0⟩] true =
      [(⟨0, 0, 0⟩ : Vec3), ⟨2, 0, 0⟩, ⟨0, 2, 0⟩].map (fun p =>
        Vec3.add (computeCenter [⟨0, 0, 0⟩, ⟨2, 0, 0⟩, ⟨0, 2, 0⟩])
          (Vec3.smul 2
            (Vec3.sub p
              (computeCenter [⟨0, 0, 0⟩, ⟨2, 0, 0⟩, ⟨0, 2, 0⟩])))) ∧
    computeCenter (scalePoints 2 [⟨0, 0, 0⟩, ⟨2, 0, 0⟩, ⟨0, 2, 0⟩] true) =
      computeCenter [⟨0, 0, 0⟩, ⟨2, 0, 0⟩, ⟨0, 2, 0⟩] :=
  ⟨((scalePoints_spec 2 [⟨0, 0, 0⟩, ⟨2, 0, 0⟩, ⟨0, 2, 0⟩]).1 (by decide)).1,
   ((scalePoints_spec 2 [⟨0, 0, 0⟩, ⟨2, 0, 0⟩, ⟨0, 2, 0⟩]).1 (by decide)).2
     (by norm_num)⟩

end Cupoch

namespace Cupoch

/-- C8: for every non-empty point buffer, `ComputeMinBound` is
componentwise less than or equal to `ComputeMaxBound`, and every
component of `ComputeCenter` lies between the corresponding components of
the min and max bounds. -/
theorem bounds_order_spec :
    ∀ points : List Vec3, points ≠ [] →
      Vec3.le (computeMinBound points) (computeMaxBound points) ∧
      Vec3.le (computeMinBound points) (computeCenter points) ∧
      Vec3.le (computeCenter points) (computeMaxBound points) := by
  intro points h
  obtain ⟨p, ps, rfl⟩ := List.exists_cons_of_ne_nil h
  have hminx : (computeMinBound (p :: ps)).x = (ps.map Vec3.x).foldl min p.x :=
    foldl_op_component Vec3.x Vec3.cmin min (fun a b => rfl) ps p
  have hminy : (computeMinBound (p :: ps)).y = (ps.map Vec3.y).foldl min p.y :=
    foldl_op_component Vec3.y Vec3.cmin min (fun a b => rfl) ps p
  have hminz : (computeMinBound (p :: ps)).z = (ps.map Vec3.z).foldl min p.z :=
    foldl_op_component Vec3.z Vec3.cmin min (fun a b => rfl) ps p
  have hmaxx : (computeMaxBound (p :: ps)).x = (ps.map Vec3.x).foldl max p.x :=
    foldl_op_component Vec3.x Vec3.cmax max (fun a b => rfl) ps p
  have hmaxy : (computeMaxBound (p :: ps)).y = (ps.map Vec3.y).foldl max p.y :=
    foldl_op_component Vec3.y Vec3.cmax max (fun a b => rfl) ps p
  have hmaxz : (computeMaxBound (p :: ps)).z = (ps.map Vec3.z).foldl max p.z :=
    foldl_op_component Vec3.z Vec3.cmax max (fun a b => rfl) ps p
  have hcx : (computeCenter (p :: ps)).x =
      (p.x + (ps.map Vec3.x).sum) / (((ps.map Vec3.x).length : ℚ) + 1) := by
    rw [computeCenter_cons_component Vec3.x (fun a b => rfl) rfl
      (fun s a => rfl) p ps, List.length_map]
  have hcy : (computeCenter (p :: ps)).y =
      (p.y + (ps.map Vec3.y).sum) / (((ps.map Vec3.y).length : ℚ) + 1) := by
    rw [computeCenter_cons_component Vec3.y (fun a b => rfl) rfl
      (fun s a => rfl) p ps, List.length_map]
  have hcz : (computeCenter (p :: ps)).z =
      (p.z + (ps.map Vec3.z).sum) / (((ps.map Vec3.z).length : ℚ) + 1) := by
    rw [computeCenter_cons_component Vec3.z (fun a b => rfl) rfl
      (fun s a => rfl) p ps, List.length_map]
  have hx := q_min_mean_max p.x (ps.map Vec3.x)
  have hy := q_min_mean_max p.y (ps.map Vec3.y)
  have hz := q_min_mean_max p.z (ps.map Vec3.z)
  refine ⟨⟨?_, ?_, ?_⟩, ⟨?_, ?_, ?_⟩, ⟨?_, ?_, ?_⟩⟩
  · rw [hminx, hmaxx]; exact hx.1
  · rw [hminy, hmaxy]; exact hy.1
  · rw [hminz, hmaxz]; exact hz.1
  · rw [hminx, hcx]; exact hx.2.1
  · rw [hminy, hcy]; exact hy.2.1
  · rw [hminz, hcz]; exact hz.2.1
  · rw [hcx, hmaxx]; exact hx.2.2
  · rw [hcy, hmaxy]; exact hy.2.2
  · rw [hcz, hmaxz]; exact hz.2.2

/-- C8 witness: the ordering of the three reductions on the concrete
buffer from the specification's worked example. -/
theorem bounds_order_spec_witness :
    Vec3.le (computeMinBound [⟨0, 0, 0⟩, ⟨2, 0, 0⟩, ⟨0, 2, 0⟩])
        (computeMaxBound [⟨0, 0, 0⟩, ⟨2, 0, 0⟩, ⟨0, 2, 0⟩]) ∧
      Vec3.le (computeMinBound [⟨0, 0, 0⟩, ⟨2, 0, 0⟩, ⟨0, 2, 0⟩])
        (computeCenter [⟨0, 0, 0⟩, ⟨2, 0, 0⟩, ⟨0, 2, 0⟩]) ∧
      Vec3.le (computeCenter [⟨0, 0, 0⟩, ⟨2, 0, 0⟩, ⟨0, 2, 0⟩])
        (computeMaxBound [⟨0, 0, 0⟩, ⟨2, 0, 0⟩, ⟨0, 2, 0⟩]) :=
  bounds_order_spec [⟨0, 0, 0⟩, ⟨2, 0, 0⟩, ⟨0, 2, 0⟩] (by decide)

end Cupoch

namespace Cupoch

/-- Two quaternions are equal when all four components agree. -/
theorem quat_ext_components {a b : Quat} (hw : a.w = b.w) (hx : a.x = b.x)
    (hy : a.y = b.y) (hz : a.z = b.z) : a = b := by
  cases a; cases b; simp_all

/-- A non-zero quaternion has positive squared norm. -/
theorem quat_normSq_pos (q : Quat) (h : q ≠ ⟨0, 0, 0, 0⟩) : 0 < q.normSq := by
  have h0 : (0 : ℝ) ≤ q.normSq := by
    unfold Quat.normSq
    positivity
  rcases h0.lt_or_eq with hlt | heq
  · exact hlt
  · exfalso
    apply h
    have hw : q.w = 0 := by
      have : q.w ^ 2 = 0 := by
        unfold Quat.normSq at heq
        nlinarith [sq_nonneg q.x, sq_nonneg q.y, sq_nonneg q.z]
      exact sq_eq_zero_iff.mp this
    have hx : q.x = 0 := by
      have : q.x ^ 2 = 0 := by
        unfold Quat.normSq at heq
        nlinarith [sq_nonneg q.w, sq_nonneg q.y, sq_nonneg q.z]
      exact sq_eq_zero_iff.mp this
    have hy : q.y = 0 := by
      have : q.y ^ 2 = 0 := by
        unfold Quat.normSq at heq
        nlinarith [sq_nonneg q.w, sq_nonneg q.x, sq_nonneg q.z]
      exact sq_eq_zero_iff.mp this
    have hz : q.z = 0 := by
      have : q.z ^ 2 = 0 := by
        unfold Quat.normSq at heq
        nlinarith [sq_nonneg q.w, sq_nonneg q.x, sq_nonneg q.y]
      exact sq_eq_zero_iff.mp this
    exact quat_ext_components hw hx hy hz

/-- Normalizing a non-zero quaternion yields a unit quaternion. -/
theorem quat_normalize_normSq (q : Quat) (h : q ≠ ⟨0, 0, 0, 0⟩) :
    q.normalize.normSq = 1 := by
  have hs : 0 < q.normSq := quat_normSq_pos q h
  have hn2 : q.norm ^ 2 = q.normSq := Real.sq_sqrt hs.le
  have hdiv : q.normalize.normSq = q.normSq / q.norm ^ 2 := by
    show (q.w / q.norm) ^ 2 + (q.x / q.norm) ^ 2 + (q.y / q.norm) ^ 2 +
        (q.z / q.norm) ^ 2 =
      (q.w ^ 2 + q.x ^ 2 + q.y ^ 2 + q.z ^ 2) / q.norm ^ 2
    ring
  rw [hdiv, hn2, div_self hs.ne']

/-- The rotation matrix of a unit quaternion is orthonormal. -/
theorem quatToMatrix_orthonormal (q : Quat) (h : q.normSq = 1) :
    (quatToMatrix q).transpose * quatToMatrix q = 1 := by
  have h1 : q.w ^ 2 + q.x ^ 2 + q.y ^ 2 + q.z ^ 2 = 1 := h
  ext i j
  fin_cases i <;> fin_cases j <;>
    simp [quatToMatrix, Matrix.mul_apply, Matrix.transpose_apply,
      Fin.sum_univ_three, Matrix.one_apply, Matrix.vecHead, Matrix.vecTail]
  · linear_combination (4 * (q.y ^ 2 + q.z ^ 2)) * h1
  · linear_combination (-(4 * q.x * q.y)) * h1
  · linear_combination (-(4 * q.x * q.z)) * h1
  · linear_combination (-(4 * q.x * q.y)) * h1
  · linear_combination (4 * (q.x ^ 2 + q.z ^ 2)) * h1
  · linear_combination (-(4 * q.y * q.z)) * h1
  · linear_combination (-(4 * q.x * q.z)) * h1
  · linear_combination (-(4 * q.y * q.z)) * h1
  · linear_combination (4 * (q.x ^ 2 + q.y ^ 2)) * h1

end Cupoch

namespace Cupoch

/-- Two real 3-vectors are equal when all three components agree. -/
theorem vec3R_ext_components {a b : Vec3R} (hx : a.x = b.x) (hy : a.y = b.y)
    (hz : a.z = b.z) : a = b := by
  cases a; cases b; simp_all

/-- A non-zero real 3-vector has positive squared norm. -/
theorem vec3R_normSq_pos (v : Vec3R) (h : v ≠ ⟨0, 0, 0⟩) : 0 < v.normSq := by
  have h0 : (0 : ℝ) ≤ v.normSq := by
    unfold Vec3R.normSq
    positivity
  rcases h0.lt_or_eq with hlt | heq
  · exact hlt
  · exfalso
    apply h
    have hx : v.x = 0 := by
      have : v.x ^ 2 = 0 := by
        unfold Vec3R.normSq at heq
        nlinarith [sq_nonneg v.y, sq_nonneg v.z]
      exact sq_eq_zero_iff.mp this
    have hy : v.y = 0 := by
      have : v.y ^ 2 = 0 := by
        unfold Vec3R.normSq at heq
        nlinarith [sq_nonneg v.x, sq_nonneg v.z]
      exact sq_eq_zero_iff.mp this
    have hz : v.z = 0 := by
      have : v.z ^ 2 = 0 := by
        unfold Vec3R.normSq at heq
        nlinarith [sq_nonneg v.x, sq_nonneg v.y]
      exact sq_eq_zero_iff.mp this
    exact vec3R_ext_components hx hy hz

/-- Normalizing a non-zero real 3-vector yields a unit vector. -/
theorem vec3R_normalize_normSq (v : Vec3R) (h : v ≠ ⟨0, 0, 0⟩) :
    v.normalize.normSq = 1 := by
  have hs : 0 < v.normSq := vec3R_normSq_pos v h
  have hn2 : v.norm ^ 2 = v.normSq := Real.sq_sqrt hs.le
  have hdiv : v.normalize.normSq = v.normSq / v.norm ^ 2 := by
    show (v.x / v.norm) ^ 2 + (v.y / v.norm) ^ 2 + (v.z / v.norm) ^ 2 =
      (v.x ^ 2 + v.y ^ 2 + v.z ^ 2) / v.norm ^ 2
    ring
  rw [hdiv, hn2, div_self hs.ne']

/-- C5: `GetRotationMatrixFromQuaternion` normalizes its 4-component
input (scalar-first ordering) before conversion and returns the rotation
matrix of the corresponding unit quaternion; for every non-zero input the
returned matrix is orthonormal. -/
theorem rotationMatrixFromQuaternion_spec :
    ∀ q : Quat, q ≠ ⟨0, 0, 0, 0⟩ →
      getRotationMatrixFromQuaternion q = quatToMatrix q.normalize ∧
      q.normalize.normSq = 1 ∧
      (getRotationMatrixFromQuaternion q).transpose *
          getRotationMatrixFromQuaternion q = 1 := by
  intro q h
  exact ⟨rfl, quat_normalize_normSq q h,
    quatToMatrix_orthonormal q.normalize (quat_normalize_normSq q h)⟩

/-- C5 witness: the identity quaternion `(1, 0, 0, 0)` is non-zero, is
normalized before conversion, and yields an orthonormal matrix. -/
theorem rotationMatrixFromQuaternion_spec_witness :
    getRotationMatrixFromQuaternion ⟨1, 0, 0, 0⟩ =
        quatToMatrix (Quat.normalize ⟨1, 0, 0, 0⟩) ∧
      (Quat.normalize ⟨1, 0, 0, 0⟩).normSq = 1 ∧
      (getRotationMatrixFromQuaternion ⟨1, 0, 0, 0⟩).transpose *
          getRotationMatrixFromQuaternion ⟨1, 0, 0, 0⟩ = 1 :=
  rotationMatrixFromQuaternion_spec ⟨1, 0, 0, 0⟩ (by
    intro hq
    exact one_ne_zero (congrArg Quat.w hq))

/-- C6: `GetRotationMatrixFromAxisAngle` applied to the zero vector
returns exactly the identity matrix; for every non-zero input it returns
the Rodrigues rotation matrix about the normalized input direction (a
unit vector, so the input need not be pre-normalized) by an angle equal
to the input's magnitude in radians. -/
theorem rotationMatrixFromAxisAngle_spec :
    getRotationMatrixFromAxisAngle ⟨0, 0, 0⟩ = 1 ∧
    ∀ r : Vec3R, r ≠ ⟨0, 0, 0⟩ →
      getRotationMatrixFromAxisAngle r = rodrigues r.normalize r.norm ∧
      r.normalize.normSq = 1 := by
  constructor
  · rw [getRotationMatrixFromAxisAngle, if_pos ⟨rfl, rfl, rfl⟩]
  · intro r h
    have hcond : ¬(r.x = 0 ∧ r.y = 0 ∧ r.z = 0) := by
      rintro ⟨hx, hy, hz⟩
      exact h (vec3R_ext_components hx hy hz)
    exact ⟨by rw [getRotationMatrixFromAxisAngle, if_neg hcond],
      vec3R_normalize_normSq r h⟩

/-- C6 witness: the non-zero axis-angle vector `(1, 0, 0)` yields the
Rodrigues rotation about its unit-normalized direction by its magnitude. -/
theorem rotationMatrixFromAxisAngle_spec_witness :
    getRotationMatrixFromAxisAngle ⟨1, 0, 0⟩ =
        rodrigues (Vec3R.normalize ⟨1, 0, 0⟩) (Vec3R.norm ⟨1, 0, 0⟩) ∧
      (Vec3R.normalize ⟨1, 0, 0⟩).normSq = 1 :=
  rotationMatrixFromAxisAngle_spec.2 ⟨1, 0, 0⟩ (by
    intro hv
    exact one_ne_zero (congrArg Vec3R.x hv))

end Cupoch
